import Mathlib

/-!
Verification of the qwen-chat backend (`backend/main.py`) against its
natural-language specification.

The development shallowly embeds the components the claims refer to:

* `ResponseCache` — the in-memory response cache (`main.py` lines 122-154);
* `parse_tool_calls` — the inline `<tool_call …>` tag parser (lines 439-464);
* the stream demultiplexer loop inside `stream_ollama_response`
  (lines 817-880) that separates passthrough text from tool-call markup;
* the tool-call extractor precedence step (lines 882-894);
* the bounded generation loop with tool execution (lines 748-964).

Machine details that are external to the repository (the MD5 digest, the
Ollama transport, the MCP tool executor) are abstracted as parameters:
the digest as an arbitrary `String → String`, the backend as a function
from the current message list to the round's stream lines, and the tool
executor as an oracle returning a success value, a falsy result, or an
exception.
-/

/-! ## Data model -/

/-- `ChatMessage` from `main.py` lines 68-70: a role and a content string. -/
structure ChatMessage where
  role : String
  content : String
deriving DecidableEq, Repr

/-! ## Response cache (`ResponseCache`, `main.py` lines 122-154)

The Python cache is a `Dict[str, tuple[str, float]]` mapping an MD5 key to
`(response, timestamp)`.  We model the dict as an association list in
insertion order (Python dicts preserve insertion order, and `min` over the
keys returns the first minimal element in that order), and the MD5 digest as
an arbitrary function `digest : String → String` — every fact proved here
holds for any digest, in particular for MD5. -/

/-- One cache slot: `(key, (response, timestamp))`. -/
abbrev CacheEntry := String × String × Nat

/-- A cache state together with its configuration. -/
structure ResponseCache where
  digest : String → String
  maxSize : Nat
  ttlSeconds : Nat
  cache : List CacheEntry

/-- `_get_cache_key` (lines 128-132): join `f"{role}:{content}"` over the
last three messages (all of them when fewer), then digest.  The Python code
MD5-hashes this string; `keyContent` is the pre-digest string. -/
def keyContent (messages : List ChatMessage) : String :=
  String.join ((messages.drop (messages.length - 3)).map
    (fun m => m.role ++ ":" ++ m.content))

/-- `_get_cache_key` including the digest step. -/
def ResponseCache.getCacheKey (rc : ResponseCache) (messages : List ChatMessage) : String :=
  rc.digest (keyContent messages)

/-- `min(self.cache.keys(), key=lambda k: self.cache[k][1])` (line 151):
the first entry of minimal timestamp, in insertion order; `none` on an
empty dict (where Python `min` would raise `ValueError`). -/
def oldestEntry : List CacheEntry → Option CacheEntry
  | [] => none
  | e :: rest =>
    match oldestEntry rest with
    | none => some e
    | some e' => if e.2.2 ≤ e'.2.2 then some e else some e'

/-- `del self.cache[key]`: remove the entry with the given key. -/
def delKey (c : List CacheEntry) (k : String) : List CacheEntry :=
  c.filter (fun e => !(e.1 == k))

/-- `self.cache[key] = value`: Python dict assignment keeps an existing
key's position and updates its value, otherwise appends. -/
def dictInsert (c : List CacheEntry) (k : String) (v : String × Nat) : List CacheEntry :=
  if c.any (fun e => e.1 == k) then
    c.map (fun e => if e.1 == k then (k, v) else e)
  else
    c ++ [(k, v)]

/-- `ResponseCache.set` (lines 146-154): when the cache has reached
`max_size`, evict the entry with the smallest creation timestamp, then
store `(response, now)` under the key of `messages`. -/
def ResponseCache.set (rc : ResponseCache) (messages : List ChatMessage)
    (response : String) (now : Nat) : ResponseCache :=
  let key := rc.getCacheKey messages
  let cache1 :=
    if rc.maxSize ≤ rc.cache.length then
      match oldestEntry rc.cache with
      | some e => delKey rc.cache e.1
      | none => rc.cache
    else rc.cache
  { rc with cache := dictInsert cache1 key (response, now) }

/-- `ResponseCache.get` (lines 134-144): return the stored response when
present and younger than `ttl_seconds`; an expired entry is deleted lazily
and reported as a miss.  Returns the result and the updated cache. -/
def ResponseCache.get (rc : ResponseCache) (messages : List ChatMessage)
    (now : Nat) : Option String × ResponseCache :=
  let key := rc.getCacheKey messages
  match rc.cache.lookup key with
  | some (response, timestamp) =>
    if now - timestamp < rc.ttlSeconds then (some response, rc)
    else (none, { rc with cache := delKey rc.cache key })
  | none => (none, rc)

/-- A cache with no entries, as built by `ResponseCache.__init__`. -/
def ResponseCache.empty (digest : String → String) (maxSize ttlSeconds : Nat) :
    ResponseCache :=
  { digest := digest, maxSize := maxSize, ttlSeconds := ttlSeconds, cache := [] }

/-- One client-visible cache operation. -/
inductive CacheOp where
  | store (messages : List ChatMessage) (response : String) (now : Nat)
  | lookup (messages : List ChatMessage) (now : Nat)

/-- Run a sequence of cache operations. -/
def runCacheOps (rc : ResponseCache) : List CacheOp → ResponseCache
  | [] => rc
  | CacheOp.store m r t :: ops => runCacheOps (rc.set m r t) ops
  | CacheOp.lookup m t :: ops => runCacheOps (rc.get m t).2 ops


/-! ### Basic cache lemmas -/

lemma oldestEntry_mem : ∀ {c : List CacheEntry} {e}, oldestEntry c = some e → e ∈ c := by
  intro c
  induction c with
  | nil => intro e h; cases h
  | cons x xs ih =>
    intro e h
    cases hx : oldestEntry xs with
    | none =>
      simp only [oldestEntry, hx] at h
      cases h; exact List.mem_cons_self _ _
    | some e' =>
      simp only [oldestEntry, hx] at h
      by_cases hle : x.2.2 ≤ e'.2.2
      · simp only [if_pos hle] at h; cases h; exact List.mem_cons_self _ _
      · simp only [if_neg hle] at h; cases h; exact List.mem_cons_of_mem _ (ih hx)

lemma oldestEntry_cons_isSome (x : CacheEntry) (xs : List CacheEntry) :
    ∃ e, oldestEntry (x :: xs) = some e := by
  cases hx : oldestEntry xs with
  | none => exact ⟨x, by simp only [oldestEntry, hx]⟩
  | some e' =>
    by_cases hle : x.2.2 ≤ e'.2.2
    · exact ⟨x, by simp only [oldestEntry, hx, if_pos hle]⟩
    · exact ⟨e', by simp only [oldestEntry, hx, if_neg hle]⟩

lemma oldestEntry_le : ∀ {c : List CacheEntry} {e}, oldestEntry c = some e →
    ∀ e' ∈ c, e.2.2 ≤ e'.2.2 := by
  intro c
  induction c with
  | nil => intro e h; cases h
  | cons x xs ih =>
    intro e h e' he'
    cases hx : oldestEntry xs with
    | none =>
      simp only [oldestEntry, hx] at h
      cases h
      rcases List.mem_cons.mp he' with h1 | h1
      · subst h1; exact le_refl _
      · cases xs with
        | nil => cases h1
        | cons y ys =>
          obtain ⟨e0, he0⟩ := oldestEntry_cons_isSome y ys
          rw [hx] at he0; cases he0
    | some emin =>
      simp only [oldestEntry, hx] at h
      by_cases hle : x.2.2 ≤ emin.2.2
      · simp only [if_pos hle] at h
        cases h
        rcases List.mem_cons.mp he' with h1 | h1
        · rw [h1]
        · exact le_trans hle (ih hx e' h1)
      · simp only [if_neg hle] at h
        cases h
        rcases List.mem_cons.mp he' with h1 | h1
        · rw [h1]; exact le_of_not_le hle
        · exact ih hx e' h1

/-- When the head entry is strictly older than every other entry, it is the
one Python's `min` selects. -/
lemma oldestEntry_head {x : CacheEntry} {xs : List CacheEntry}
    (h : ∀ e ∈ xs, x.2.2 < e.2.2) : oldestEntry (x :: xs) = some x := by
  cases hx : oldestEntry xs with
  | none => simp only [oldestEntry, hx]
  | some e' =>
    have hle : x.2.2 ≤ e'.2.2 := le_of_lt (h e' (oldestEntry_mem hx))
    simp only [oldestEntry, hx, if_pos hle]

lemma length_delKey_le (c : List CacheEntry) (k : String) :
    (delKey c k).length ≤ c.length :=
  List.length_filter_le _ _

lemma length_delKey_lt {c : List CacheEntry} {k : String} {e : CacheEntry}
    (he : e ∈ c) (hk : e.1 = k) : (delKey c k).length < c.length := by
  induction c with
  | nil => cases he
  | cons x xs ih =>
    simp only [delKey, List.filter_cons]
    rcases List.mem_cons.mp he with h1 | h1
    · subst h1
      have hpred : (!(e.1 == k)) = false := by simp [hk]
      rw [hpred]
      simp only [Bool.false_eq_true, if_false]
      exact Nat.lt_succ_of_le (List.length_filter_le _ _)
    · by_cases hx : (!(x.1 == k)) = true
      · rw [if_pos hx]
        simpa using Nat.succ_lt_succ (ih h1)
      · rw [if_neg hx]
        exact Nat.lt_succ_of_le (le_of_lt (ih h1))

lemma delKey_cons_of_head {x : CacheEntry} {xs : List CacheEntry} {k : String}
    (hx : x.1 = k) (hxs : ∀ e ∈ xs, e.1 ≠ k) : delKey (x :: xs) k = xs := by
  simp only [delKey, List.filter_cons]
  have h1 : (!(x.1 == k)) = false := by simp [hx]
  rw [h1]
  simp only [Bool.false_eq_true, if_false]
  exact List.filter_eq_self.mpr (fun e he => by simp [hxs e he])

lemma length_dictInsert_le (c : List CacheEntry) (k : String) (v : String × Nat) :
    (dictInsert c k v).length ≤ c.length + 1 := by
  simp only [dictInsert]
  split
  · simp
  · simp

lemma dictInsert_fresh {c : List CacheEntry} {k : String} (v : String × Nat)
    (h : ∀ e ∈ c, e.1 ≠ k) : dictInsert c k v = c ++ [(k, v)] := by
  simp only [dictInsert]
  have hany : c.any (fun e => e.1 == k) = false := by
    simp only [List.any_eq_false]
    intro e he; simp [h e he]
  rw [hany]
  simp

lemma set_cache_length_le {rc : ResponseCache} (hpos : 0 < rc.maxSize)
    (hinv : rc.cache.length ≤ rc.maxSize) (m : List ChatMessage) (r : String) (t : Nat) :
    (rc.set m r t).cache.length ≤ rc.maxSize := by
  simp only [ResponseCache.set]
  by_cases hcap : rc.maxSize ≤ rc.cache.length
  · have hlen : rc.cache.length = rc.maxSize := le_antisymm hinv hcap
    have hne : rc.cache ≠ [] := by
      intro h; rw [h] at hlen; simp at hlen; omega
    obtain ⟨x, xs, hx⟩ := List.exists_cons_of_ne_nil hne
    obtain ⟨e, he⟩ : ∃ e, oldestEntry rc.cache = some e := by
      rw [hx]; exact oldestEntry_cons_isSome x xs
    rw [if_pos hcap]
    simp only [he]
    have hmem : e ∈ rc.cache := oldestEntry_mem he
    have hdel : (delKey rc.cache e.1).length < rc.cache.length :=
      length_delKey_lt hmem rfl
    have hins := length_dictInsert_le (delKey rc.cache e.1) (rc.getCacheKey m) (r, t)
    omega
  · rw [if_neg hcap]
    have hins := length_dictInsert_le rc.cache (rc.getCacheKey m) (r, t)
    omega

lemma get_cache_length_le (rc : ResponseCache) (m : List ChatMessage) (t : Nat) :
    (rc.get m t).2.cache.length ≤ rc.cache.length := by
  simp only [ResponseCache.get]
  cases rc.cache.lookup (rc.getCacheKey m) with
  | none => simp
  | some p =>
    cases p with
    | mk response timestamp =>
      by_cases h : t - timestamp < rc.ttlSeconds
      · simp [h]
      · simp [h, length_delKey_le]

lemma set_fields (rc : ResponseCache) (m : List ChatMessage) (r : String) (t : Nat) :
    (rc.set m r t).maxSize = rc.maxSize ∧ (rc.set m r t).ttlSeconds = rc.ttlSeconds := by
  simp [ResponseCache.set]

lemma get_fields (rc : ResponseCache) (m : List ChatMessage) (t : Nat) :
    (rc.get m t).2.maxSize = rc.maxSize ∧ (rc.get m t).2.ttlSeconds = rc.ttlSeconds := by
  simp only [ResponseCache.get]
  cases rc.cache.lookup (rc.getCacheKey m) with
  | none => simp
  | some p => cases p with
    | mk response timestamp =>
      by_cases h : t - timestamp < rc.ttlSeconds <;> simp [h]

lemma runCacheOps_length_le : ∀ (ops : List CacheOp) (rc : ResponseCache),
    0 < rc.maxSize → rc.cache.length ≤ rc.maxSize →
    (runCacheOps rc ops).cache.length ≤ rc.maxSize := by
  intro ops
  induction ops with
  | nil => intro rc h1 h2; simpa [runCacheOps] using h2
  | cons op rest ih =>
    intro rc h1 h2
    cases op with
    | store m r t =>
      simp only [runCacheOps]
      have hms := (set_fields rc m r t).1
      have := ih (rc.set m r t) (by rw [hms]; exact h1)
        (by rw [hms]; exact set_cache_length_le h1 h2 m r t)
      rwa [hms] at this
    | lookup m t =>
      simp only [runCacheOps]
      have hms := (get_fields rc m t).1
      have := ih (rc.get m t).2 (by rw [hms]; exact h1)
        (by rw [hms]; exact le_trans (get_cache_length_le rc m t) h2)
      rwa [hms] at this

/-! ### Eviction scenario: filling past capacity -/

/-- Store a batch of (messages, response) pairs at consecutive timestamps. -/
def storeSeq (rc : ResponseCache) (t : Nat) :
    List (List ChatMessage × String) → ResponseCache
  | [] => rc
  | (m, r) :: rest => storeSeq (rc.set m r t) (t + 1) rest

/-- The entries a batch of fresh stores lays down, with consecutive
timestamps starting at `t`. -/
def entriesOf (digest : String → String) (t : Nat) :
    List (List ChatMessage × String) → List CacheEntry
  | [] => []
  | (m, r) :: rest => (digest (keyContent m), r, t) :: entriesOf digest (t + 1) rest

lemma entriesOf_time_ge (digest : String → String) :
    ∀ (items : List (List ChatMessage × String)) (t : Nat),
      ∀ e ∈ entriesOf digest t items, t ≤ e.2.2 := by
  intro items
  induction items with
  | nil => intro t e he; cases he
  | cons p rest ih =>
    intro t e he
    cases p with
    | mk m r =>
      rcases List.mem_cons.mp he with h1 | h1
      · subst h1; exact le_refl _
      · exact le_trans (Nat.le_succ t) (ih (t + 1) e h1)

lemma entriesOf_keys (digest : String → String) :
    ∀ (items : List (List ChatMessage × String)) (t : Nat),
      (entriesOf digest t items).map (fun e => e.1)
        = items.map (fun p => digest (keyContent p.1)) := by
  intro items
  induction items with
  | nil => intro t; rfl
  | cons p rest ih =>
    intro t
    cases p with
    | mk m r => simp [entriesOf, ih (t + 1)]

lemma entriesOf_length (digest : String → String) :
    ∀ (items : List (List ChatMessage × String)) (t : Nat),
      (entriesOf digest t items).length = items.length := by
  intro items
  induction items with
  | nil => intro t; rfl
  | cons p rest ih =>
    intro t
    cases p with
    | mk m r => simp [entriesOf, ih (t + 1)]

/-- Filling an under-capacity cache with fresh, pairwise-distinct keys just
appends the corresponding entries. -/
lemma storeSeq_fill (digest : String → String) (maxSize ttlSeconds : Nat) :
    ∀ (items : List (List ChatMessage × String)) (E : List CacheEntry) (t : Nat),
      E.length + items.length ≤ maxSize →
      (∀ p ∈ items, ∀ e ∈ E, e.1 ≠ digest (keyContent p.1)) →
      (items.map (fun p => digest (keyContent p.1))).Nodup →
      storeSeq ⟨digest, maxSize, ttlSeconds, E⟩ t items
        = ⟨digest, maxSize, ttlSeconds, E ++ entriesOf digest t items⟩ := by
  intro items
  induction items with
  | nil => intro E t h1 h2 h3; simp [storeSeq, entriesOf]
  | cons p rest ih =>
    intro E t h1 h2 h3
    cases p with
    | mk m r =>
      have hkey : (⟨digest, maxSize, ttlSeconds, E⟩ : ResponseCache).getCacheKey m
          = digest (keyContent m) := rfl
      have hlt : E.length < maxSize := by
        simp only [List.length_cons] at h1; omega
      have hset : (⟨digest, maxSize, ttlSeconds, E⟩ : ResponseCache).set m r t
          = ⟨digest, maxSize, ttlSeconds, E ++ [(digest (keyContent m), r, t)]⟩ := by
        simp only [ResponseCache.set, hkey]
        rw [if_neg (Nat.not_le.mpr hlt)]
        rw [dictInsert_fresh _ (fun e he => h2 (m, r) (List.mem_cons_self _ _) e he)]
      simp only [storeSeq, hset]
      rw [ih (E ++ [(digest (keyContent m), r, t)]) (t + 1)
        (by simp only [List.length_append, List.length_cons, List.length_nil] at h1 ⊢; omega)
        ?_ (by simpa using h3.of_cons)]
      · simp [entriesOf]
      · intro q hq e he
        rcases List.mem_append.mp he with h4 | h4
        · exact h2 q (List.mem_cons_of_mem _ hq) e h4
        · have : e = (digest (keyContent m), r, t) := by simpa using h4
          subst this
          simp only [List.map_cons, List.nodup_cons] at h3
          intro hcontra
          have hcontra' : digest (keyContent m) = digest (keyContent q.1) := hcontra
          exact h3.1 (by rw [hcontra']; exact List.mem_map_of_mem _ hq)

lemma storeSeq_append (l₁ l₂ : List (List ChatMessage × String)) :
    ∀ (rc : ResponseCache) (t : Nat),
      storeSeq rc t (l₁ ++ l₂) = storeSeq (storeSeq rc t l₁) (t + l₁.length) l₂ := by
  induction l₁ with
  | nil => intro rc t; simp [storeSeq]
  | cons p rest ih =>
    intro rc t
    cases p with
    | mk m r =>
      simp only [List.cons_append, storeSeq, List.append_eq]
      rw [ih]
      congr 1
      simp only [List.length_cons]
      omega

/-- A store into a full cache evicts the entry Python's `min` picks: an
entry of globally minimal creation timestamp. -/
lemma set_at_capacity (rc : ResponseCache) (hpos : 0 < rc.maxSize)
    (hcap : rc.maxSize ≤ rc.cache.length) (m : List ChatMessage) (r : String) (t : Nat) :
    ∃ e, oldestEntry rc.cache = some e ∧ e ∈ rc.cache ∧
      (∀ e' ∈ rc.cache, e.2.2 ≤ e'.2.2) ∧
      (rc.set m r t).cache = dictInsert (delKey rc.cache e.1) (rc.getCacheKey m) (r, t) := by
  have hne : rc.cache ≠ [] := by
    intro h; rw [h] at hcap; simp only [List.length_nil] at hcap; omega
  obtain ⟨x, xs, hx⟩ := List.exists_cons_of_ne_nil hne
  obtain ⟨e, he⟩ : ∃ e, oldestEntry rc.cache = some e := by
    rw [hx]; exact oldestEntry_cons_isSome x xs
  refine ⟨e, he, oldestEntry_mem he, oldestEntry_le he, ?_⟩
  simp only [ResponseCache.set, if_pos hcap, he]

/-- Inserting `maxSize + 1` pairwise-distinct keys into an empty cache ends
with exactly `maxSize` entries, the first-inserted key evicted. -/
lemma storeSeq_overflow (digest : String → String) (maxSize ttlSeconds : Nat)
    (items : List (List ChatMessage × String))
    (hpos : 0 < maxSize) (hlen : items.length = maxSize + 1)
    (hnodup : (items.map (fun p => digest (keyContent p.1))).Nodup) :
    (storeSeq (ResponseCache.empty digest maxSize ttlSeconds) 0 items).cache.length = maxSize
    ∧ ∀ p₀, items.head? = some p₀ →
        ∀ e ∈ (storeSeq (ResponseCache.empty digest maxSize ttlSeconds) 0 items).cache,
          e.1 ≠ digest (keyContent p₀.1) := by
  classical
  set a := items.take maxSize with ha_def
  set b := items.drop maxSize with hb_def
  have hab : items = a ++ b := (List.take_append_drop _ _).symm
  have hal : a.length = maxSize := by
    rw [ha_def, List.length_take]; omega
  have hbl : b.length = 1 := by
    rw [hb_def, List.length_drop]; omega
  obtain ⟨plast, hb⟩ := List.length_eq_one.mp hbl
  obtain ⟨mL, rL⟩ := plast
  -- split the key-distinctness hypothesis over the two phases
  rw [hab, List.map_append, List.nodup_append] at hnodup
  obtain ⟨hna, hnb, hdisj⟩ := hnodup
  -- the fill phase appends maxSize fresh entries to the empty cache
  have hfill := storeSeq_fill digest maxSize ttlSeconds a [] 0
    (by simp [hal]) (by intro p hp e he; cases he) hna
  -- the batch decomposes into fill phase then one overflowing store
  have hsplit : storeSeq (ResponseCache.empty digest maxSize ttlSeconds) 0 items
      = ((⟨digest, maxSize, ttlSeconds, entriesOf digest 0 a⟩ : ResponseCache).set mL rL maxSize) := by
    rw [hab, storeSeq_append, hb]
    have hempty : (ResponseCache.empty digest maxSize ttlSeconds)
        = ⟨digest, maxSize, ttlSeconds, []⟩ := rfl
    rw [hempty, hfill]
    simp [storeSeq, hal]
  -- name the pieces of the filled cache
  have hane : a ≠ [] := by
    intro h; rw [h] at hal; simp at hal; omega
  obtain ⟨p₀, a', hpa⟩ := List.exists_cons_of_ne_nil hane
  obtain ⟨m₀, r₀⟩ := p₀
  have hentries : entriesOf digest 0 a
      = (digest (keyContent m₀), r₀, 0) :: entriesOf digest 1 a' := by
    rw [hpa]; rfl
  have hcs_keys : (entriesOf digest 1 a').map (fun e => e.1)
      = a'.map (fun p => digest (keyContent p.1)) := entriesOf_keys digest a' 1
  have hk0_notin : digest (keyContent m₀) ∉ a'.map (fun p => digest (keyContent p.1)) := by
    rw [hpa, List.map_cons] at hna
    exact (List.nodup_cons.mp hna).1
  have hcs_ne : ∀ e ∈ entriesOf digest 1 a', e.1 ≠ digest (keyContent m₀) := by
    intro e he hcontra
    apply hk0_notin
    rw [← hcs_keys, ← hcontra]
    exact List.mem_map_of_mem _ he
  have hkL_in_b : digest (keyContent mL) ∈ b.map (fun p => digest (keyContent p.1)) := by
    rw [hb]; simp
  have hkL_notin_a : digest (keyContent mL) ∉ a.map (fun p => digest (keyContent p.1)) := by
    intro h; exact hdisj h hkL_in_b
  have hcs_fresh : ∀ e ∈ entriesOf digest 1 a', e.1 ≠ digest (keyContent mL) := by
    intro e he hcontra
    apply hkL_notin_a
    rw [hpa, List.map_cons]
    refine List.mem_cons_of_mem _ ?_
    rw [← hcs_keys, ← hcontra]
    exact List.mem_map_of_mem _ he
  have hk0_ne_kL : digest (keyContent m₀) ≠ digest (keyContent mL) := by
    intro h
    apply hkL_notin_a
    rw [hpa, List.map_cons, ← h]
    exact List.mem_cons_self _ _
  -- the overflowing store evicts the (strictly oldest) first entry
  have hcache_len : (entriesOf digest 0 a).length = maxSize := by
    rw [entriesOf_length digest a 0, hal]
  have hcap : maxSize ≤ (entriesOf digest 0 a).length := by omega
  have holdest : oldestEntry (entriesOf digest 0 a)
      = some (digest (keyContent m₀), r₀, 0) := by
    rw [hentries]
    apply oldestEntry_head
    intro e he
    exact lt_of_lt_of_le Nat.zero_lt_one (entriesOf_time_ge digest a' 1 e he)
  have hdel : delKey (entriesOf digest 0 a) (digest (keyContent m₀))
      = entriesOf digest 1 a' := by
    rw [hentries]
    exact delKey_cons_of_head rfl hcs_ne
  have hset : ((⟨digest, maxSize, ttlSeconds, entriesOf digest 0 a⟩ : ResponseCache).set
        mL rL maxSize).cache
      = entriesOf digest 1 a' ++ [(digest (keyContent mL), rL, maxSize)] := by
    simp only [ResponseCache.set, if_pos hcap, holdest, hdel]
    exact dictInsert_fresh _ hcs_fresh
  have hfinal : (storeSeq (ResponseCache.empty digest maxSize ttlSeconds) 0 items).cache
      = entriesOf digest 1 a' ++ [(digest (keyContent mL), rL, maxSize)] := by
    rw [hsplit]; exact hset
  constructor
  · rw [hfinal]
    simp only [List.length_append, List.length_cons, List.length_nil,
      entriesOf_length digest a' 1]
    have : a'.length + 1 = maxSize := by
      have := hal
      rw [hpa] at this
      simpa using this
    omega
  · intro q₀ hq₀ e he
    have hq : q₀ = (m₀, r₀) := by
      rw [hab, hpa] at hq₀
      simpa using hq₀.symm
    subst hq
    rw [hfinal] at he
    rcases List.mem_append.mp he with h1 | h1
    · exact hcs_ne e h1
    · have : e = (digest (keyContent mL), rL, maxSize) := by simpa using h1
      subst this
      exact fun h => hk0_ne_kL h.symm

/-! ### Claim C7 -/

/-- C7: for every sequence of cache operations starting from an empty cache
the cache never holds more than `max_size` entries; a store performed at
capacity evicts an entry of smallest creation timestamp (the one Python's
`min` selects); and inserting `max_size + 1` stores with pairwise-distinct
keys into an empty cache leaves exactly `max_size` entries with the
first-inserted key absent. -/
theorem cache_capacity_invariant_and_oldest_eviction :
    (∀ (digest : String → String) (maxSize ttlSeconds : Nat), 0 < maxSize →
      ∀ ops : List CacheOp,
        (runCacheOps (ResponseCache.empty digest maxSize ttlSeconds) ops).cache.length
          ≤ maxSize)
    ∧ (∀ rc : ResponseCache, 0 < rc.maxSize → rc.maxSize ≤ rc.cache.length →
        ∀ (m : List ChatMessage) (r : String) (t : Nat),
          ∃ e, oldestEntry rc.cache = some e ∧ e ∈ rc.cache ∧
            (∀ e' ∈ rc.cache, e.2.2 ≤ e'.2.2) ∧
            (rc.set m r t).cache
              = dictInsert (delKey rc.cache e.1) (rc.getCacheKey m) (r, t))
    ∧ (∀ (digest : String → String) (maxSize ttlSeconds : Nat)
         (items : List (List ChatMessage × String)),
        0 < maxSize → items.length = maxSize + 1 →
        (items.map (fun p => digest (keyContent p.1))).Nodup →
        (storeSeq (ResponseCache.empty digest maxSize ttlSeconds) 0 items).cache.length
            = maxSize
        ∧ ∀ p₀, items.head? = some p₀ →
            ∀ e ∈ (storeSeq (ResponseCache.empty digest maxSize ttlSeconds) 0 items).cache,
              e.1 ≠ digest (keyContent p₀.1)) := by
  refine ⟨?_, ?_, ?_⟩
  · intro digest maxSize ttlSeconds hpos ops
    exact runCacheOps_length_le ops _ hpos (by simp [ResponseCache.empty])
  · intro rc hpos hcap m r t
    exact set_at_capacity rc hpos hcap m r t
  · intro digest maxSize ttlSeconds items hpos hlen hnodup
    exact storeSeq_overflow digest maxSize ttlSeconds items hpos hlen hnodup

/-- Witness for C7: capacity 1, two stores with distinct keys; exactly one
entry remains and it is not the first key. -/
theorem cache_capacity_invariant_witness :
    (storeSeq (ResponseCache.empty (fun s => s) 1 3600) 0
        [([⟨"user", "a"⟩], "ra"), ([⟨"user", "b"⟩], "rb")]).cache.length = 1 :=
  (cache_capacity_invariant_and_oldest_eviction.2.2 (fun s => s) 1 3600
      [([⟨"user", "a"⟩], "ra"), ([⟨"user", "b"⟩], "rb")]
      (by decide) (by decide) (by decide)).1

/-! ### Claim C10 -/

/-- Two chat messages `user:"a"`, `user:"b"`. -/
def collisionMsgsA : List ChatMessage := [⟨"user", "a"⟩, ⟨"user", "b"⟩]

/-- One chat message `user:"auser:b"`, a different conversation window. -/
def collisionMsgsB : List ChatMessage := [⟨"user", "auser:b"⟩]

/-- C10: the cache key function is not injective on message windows — the
delimiter-free `role:content` concatenation collides on these two distinct
message lists, for every digest, so a lookup for one window returns the
response stored for the other. -/
theorem cache_key_collision :
    collisionMsgsA ≠ collisionMsgsB
    ∧ keyContent collisionMsgsA = keyContent collisionMsgsB
    ∧ (∀ rc : ResponseCache, rc.getCacheKey collisionMsgsA = rc.getCacheKey collisionMsgsB)
    ∧ (∀ (digest : String → String) (maxSize : Nat),
        (((ResponseCache.empty digest maxSize 3600).set collisionMsgsB "cached" 0).get
            collisionMsgsA 1).1 = some "cached") := by
  have hkey : keyContent collisionMsgsA = keyContent collisionMsgsB := by decide
  refine ⟨by decide, hkey, ?_, ?_⟩
  · intro rc
    simp [ResponseCache.getCacheKey, hkey]
  · intro digest maxSize
    have hset : (ResponseCache.empty digest maxSize 3600).set collisionMsgsB "cached" 0
        = ⟨digest, maxSize, 3600, [(digest (keyContent collisionMsgsB), "cached", 0)]⟩ := by
      simp [ResponseCache.set, ResponseCache.empty, ResponseCache.getCacheKey,
        oldestEntry, dictInsert]
    rw [hset]
    simp [ResponseCache.get, ResponseCache.getCacheKey, hkey, List.lookup]

/-! ## JSON values and decoding

`parse_tool_calls` (`main.py` line 454) decodes each tag body with
`json.loads`.  `JVal` is a JSON value; numbers keep their source numeral (no
claim compares numeric values semantically).  `jsonLoads` is a recursive
descent parser for the `json.loads` grammar: a strict JSON value with
optional surrounding whitespace and nothing after it. -/

inductive JVal where
  | jnull
  | jbool (b : Bool)
  | jnum (lit : String)
  | jstr (s : String)
  | jarr (xs : List JVal)
  | jobj (fields : List (String × JVal))

/-- Python `str.strip` whitespace set. -/
def pyWs (c : Char) : Bool :=
  c = ' ' || c = '\t' || c = '\n' || c = '\r' || c = '\x0b' || c = '\x0c'

/-- Python `str.strip()`. -/
def pyStrip (s : String) : String :=
  String.mk (((s.data.dropWhile pyWs).reverse.dropWhile pyWs).reverse)

/-- JSON whitespace (RFC 8259: space, tab, newline, carriage return). -/
def jsonWs (c : Char) : Bool :=
  c = ' ' || c = '\t' || c = '\n' || c = '\r'

/-- Drop leading JSON whitespace. -/
def skipWs (l : List Char) : List Char := l.dropWhile jsonWs

/-- Hexadecimal digit value, for `\uXXXX` escapes. -/
def hexVal (c : Char) : Option Nat :=
  if '0' ≤ c ∧ c ≤ '9' then some (c.toNat - '0'.toNat)
  else if 'a' ≤ c ∧ c ≤ 'f' then some (c.toNat - 'a'.toNat + 10)
  else if 'A' ≤ c ∧ c ≤ 'F' then some (c.toNat - 'A'.toNat + 10)
  else none

/-- Body of a JSON string after the opening quote: returns the decoded
characters and the input following the closing quote.  Unescaped control
characters are rejected, as in strict `json.loads`. -/
def parseStringBody : Nat → List Char → Option (List Char × List Char)
  | 0, _ => none
  | _ + 1, [] => none
  | fuel + 1, c :: r =>
    if c = '"' then some ([], r)
    else if c = '\\' then
      match r with
      | [] => none
      | e :: r2 =>
        let dec : Option (Char × List Char) :=
          if e = '"' then some ('"', r2)
          else if e = '\\' then some ('\\', r2)
          else if e = '/' then some ('/', r2)
          else if e = 'b' then some ('\x08', r2)
          else if e = 'f' then some ('\x0c', r2)
          else if e = 'n' then some ('\n', r2)
          else if e = 'r' then some ('\r', r2)
          else if e = 't' then some ('\t', r2)
          else if e = 'u' then
            match r2 with
            | h1 :: h2 :: h3 :: h4 :: r3 =>
              match hexVal h1, hexVal h2, hexVal h3, hexVal h4 with
              | some a, some b, some c3, some d =>
                some (Char.ofNat (((a * 16 + b) * 16 + c3) * 16 + d), r3)
              | _, _, _, _ => none
            | _ => none
          else none
        match dec with
        | some (ch, rest) =>
          match parseStringBody fuel rest with
          | some (s, rest2) => some (ch :: s, rest2)
          | none => none
        | none => none
    else if c.toNat < 32 then none
    else
      match parseStringBody fuel r with
      | some (s, rest) => some (c :: s, rest)
      | none => none

/-- Integer part of a JSON number: `0` or a nonzero digit run. -/
def parseIntPart : List Char → Option (List Char × List Char)
  | [] => none
  | c :: r =>
    if c = '0' then some (['0'], r)
    else if c.isDigit then some (c :: r.takeWhile Char.isDigit, r.dropWhile Char.isDigit)
    else none

/-- Optional fraction part `.digits`; a bare dot is an error. -/
def parseFracPart : List Char → Option (List Char × List Char)
  | '.' :: r =>
    let ds := r.takeWhile Char.isDigit
    if ds.isEmpty then none else some ('.' :: ds, r.dropWhile Char.isDigit)
  | l => some ([], l)

/-- Optional exponent part `[eE][+-]?digits`; a bare `e` is an error. -/
def parseExpPart : List Char → Option (List Char × List Char)
  | [] => some ([], [])
  | c :: r =>
    if c = 'e' ∨ c = 'E' then
      let sr : List Char × List Char :=
        match r with
        | s :: r' => if s = '+' ∨ s = '-' then ([s], r') else ([], r)
        | [] => ([], [])
      let ds := sr.2.takeWhile Char.isDigit
      if ds.isEmpty then none
      else some (c :: (sr.1 ++ ds), sr.2.dropWhile Char.isDigit)
    else some ([], c :: r)

/-- A JSON number, kept as its source numeral. -/
def parseNum (l : List Char) : Option (JVal × List Char) :=
  let sl : List Char × List Char :=
    match l with
    | '-' :: r => (['-'], r)
    | _ => ([], l)
  match parseIntPart sl.2 with
  | none => none
  | some (ip, r1) =>
    match parseFracPart r1 with
    | none => none
    | some (fp, r2) =>
      match parseExpPart r2 with
      | none => none
      | some (ep, r3) => some (JVal.jnum (String.mk (sl.1 ++ ip ++ fp ++ ep)), r3)

/-- Parsing mode: a value, the tail of an array, or the tail of an object. -/
inductive PMode where
  | value
  | arrayTail
  | objectTail

/-- Parser intermediate output. -/
inductive POut where
  | v (x : JVal)
  | arr (xs : List JVal)
  | obj (xs : List (String × JVal))

/-- Recursive-descent JSON parser; the fuel bounds recursion depth and is
ample at `length + 2` for the initial call. -/
def parseRun : Nat → PMode → List Char → Option (POut × List Char)
  | 0, _, _ => none
  | fuel + 1, PMode.value, l =>
    match skipWs l with
    | [] => none
    | 'n' :: r => if "ull".data.isPrefixOf r then some (POut.v JVal.jnull, r.drop 3) else none
    | 't' :: r =>
      if "rue".data.isPrefixOf r then some (POut.v (JVal.jbool true), r.drop 3) else none
    | 'f' :: r =>
      if "alse".data.isPrefixOf r then some (POut.v (JVal.jbool false), r.drop 4) else none
    | '"' :: r =>
      match parseStringBody (r.length + 1) r with
      | some (s, rest) => some (POut.v (JVal.jstr (String.mk s)), rest)
      | none => none
    | '[' :: r =>
      (match skipWs r with
       | ']' :: r2 => some (POut.v (JVal.jarr []), r2)
       | _ =>
         match parseRun fuel PMode.value r with
         | some (POut.v x, rest) =>
           match parseRun fuel PMode.arrayTail rest with
           | some (POut.arr xs, rest2) => some (POut.v (JVal.jarr (x :: xs)), rest2)
           | _ => none
         | _ => none)
    | '{' :: r =>
      (match skipWs r with
       | '}' :: r2 => some (POut.v (JVal.jobj []), r2)
       | '"' :: r2 =>
         match parseStringBody (r2.length + 1) r2 with
         | some (k, rest) =>
           (match skipWs rest with
            | ':' :: rest2 =>
              match parseRun fuel PMode.value rest2 with
              | some (POut.v x, rest3) =>
                match parseRun fuel PMode.objectTail rest3 with
                | some (POut.obj xs, rest4) =>
                  some (POut.v (JVal.jobj ((String.mk k, x) :: xs)), rest4)
                | _ => none
              | _ => none
            | _ => none)
         | none => none
       | _ => none)
    | c :: r =>
      if c = '-' ∨ c.isDigit then
        match parseNum (c :: r) with
        | some (x, rest) => some (POut.v x, rest)
        | none => none
      else none
  | fuel + 1, PMode.arrayTail, l =>
    match skipWs l with
    | ']' :: r => some (POut.arr [], r)
    | ',' :: r =>
      match parseRun fuel PMode.value r with
      | some (POut.v x, rest) =>
        match parseRun fuel PMode.arrayTail rest with
        | some (POut.arr xs, rest2) => some (POut.arr (x :: xs), rest2)
        | _ => none
      | _ => none
    | _ => none
  | fuel + 1, PMode.objectTail, l =>
    match skipWs l with
    | '}' :: r => some (POut.obj [], r)
    | ',' :: r =>
      (match skipWs r with
       | '"' :: r2 =>
         match parseStringBody (r2.length + 1) r2 with
         | some (k, rest) =>
           (match skipWs rest with
            | ':' :: rest2 =>
              match parseRun fuel PMode.value rest2 with
              | some (POut.v x, rest3) =>
                match parseRun fuel PMode.objectTail rest3 with
                | some (POut.obj xs, rest4) => some (POut.obj ((String.mk k, x) :: xs), rest4)
                | _ => none
              | _ => none
            | _ => none)
         | none => none
       | _ => none)
    | _ => none

/-- `json.loads`: one JSON value with only whitespace around it. -/
def jsonLoads (s : String) : Option JVal :=
  match parseRun (s.length + 2) PMode.value s.data with
  | some (POut.v x, rest) => if (skipWs rest).isEmpty then some x else none
  | _ => none

/-! ## Substring scanning primitives

The Python code uses `'<tool_call' in buffer`, `'</tool_call>' in buffer`
and two regexes.  `hasSub` is Python's `in`; `splitOnSub` splits at the
first occurrence of a pattern, consuming it — the building block both
regexes reduce to (see `demuxSplit` and `matchTagAt`). -/

/-- The tag-opening marker `<tool_call`. -/
def openMarker : List Char := "<tool_call".data

/-- The tag-closing marker `</tool_call>`. -/
def closeMarker : List Char := "</tool_call>".data

/-- Python's substring test `pat in l`. -/
def hasSub (pat : List Char) : List Char → Bool
  | [] => pat.isEmpty
  | c :: rest => pat.isPrefixOf (c :: rest) || hasSub pat rest

/-- Split at the first occurrence of `pat`: returns the part before it and
the part after it (the occurrence itself consumed), or `none`. -/
def splitOnSub (pat : List Char) : List Char → Option (List Char × List Char)
  | [] => if pat.isEmpty then some ([], []) else none
  | c :: rest =>
    if pat.isPrefixOf (c :: rest) then some ([], (c :: rest).drop pat.length)
    else
      match splitOnSub pat rest with
      | some (pre, post) => some (c :: pre, post)
      | none => none

/-! ## Inline tag parser (`parse_tool_calls`, `main.py` lines 439-464)

The regex `<tool_call name="([^"]+)">(.*?)</tool_call>` with `re.finditer`
scans left to right; at a match position the name is the nonempty run up to
the first `"` (which must be followed by `>`), the body runs lazily up to
the first `</tool_call>`, and scanning resumes after the match. -/

/-- Attempt the full-tag regex match anchored at the head of `l`; on success
returns the name, the raw body, and the input after the match. -/
def matchTagAt (l : List Char) : Option (String × String × List Char) :=
  if "<tool_call name=\"".data.isPrefixOf l then
    match splitOnSub ['"'] (l.drop 17) with
    | none => none
    | some (name, r2) =>
      if name.isEmpty then none
      else
        match r2 with
        | '>' :: r3 =>
          match splitOnSub closeMarker r3 with
          | none => none
          | some (body, rest) => some (String.mk name, String.mk body, rest)
        | _ => none
  else none

/-- `re.finditer` over the tag regex: leftmost matches, non-overlapping,
scan resumes after each match.  The fuel is ample at the input length. -/
def findCallsGo : Nat → List Char → List (String × String)
  | 0, _ => []
  | _ + 1, [] => []
  | fuel + 1, c :: rest =>
    match matchTagAt (c :: rest) with
    | some (name, body, remainder) => (name, body) :: findCallsGo fuel remainder
    | none => findCallsGo fuel rest

/-- A canonical tool call `{"name": …, "arguments": …}`. -/
structure ToolCall where
  name : String
  arguments : JVal

/-- `parse_tool_calls` (lines 439-464): every regex match whose stripped
body decodes as JSON yields a call; a decode failure drops only that match
(the `raw_match` field of the Python dict is unused downstream and
omitted). -/
def parse_tool_calls (text : String) : List ToolCall :=
  (findCallsGo text.data.length text.data).filterMap (fun nb =>
    match jsonLoads (pyStrip nb.2) with
    | some args => some ⟨nb.1, args⟩
    | none => none)

/-! ## Stream demultiplexer (`main.py` lines 817-880)

The inner `while True` loop over `display_buffer`: with no `<tool_call`
substring the whole buffer is emitted; with `<tool_call` but no
`</tool_call>` nothing is emitted (wait for more chunks); otherwise the
buffer is split by `re.search(r'(.*?)(<tool_call[^>]*>.*?</tool_call>)(.*)',
buffer, re.DOTALL)`: the text before the first tag is emitted, the tag is
dropped, and the loop continues on the text after it.  A failing search is
the code's "safety break". -/

/-- The demultiplexer regex split: first `<tool_call`, then the first `>`
after it, then the first `</tool_call>` after that.  This is exactly the
`re.search` above: a lazy `(.*?)` prefix anchors the tag at its leftmost
possible start, `[^>]*>` runs to the first `>`, the lazy body to the first
`</tool_call>`; if the leftmost `<tool_call` has no such continuation no
later one does either, and the search fails. -/
def demuxSplit (buf : List Char) : Option (List Char × List Char × List Char) :=
  match splitOnSub openMarker buf with
  | none => none
  | some (pre, rest1) =>
    match splitOnSub ['>'] rest1 with
    | none => none
    | some (attrs, rest2) =>
      match splitOnSub closeMarker rest2 with
      | none => none
      | some (body, post) =>
        some (pre, openMarker ++ attrs ++ '>' :: (body ++ closeMarker), post)

/-- One run of the inner `while True` loop on `display_buffer`: returns the
emitted passthrough pieces in order and the remaining buffer.  The fuel is
ample at `buffer length + 1`. -/
def feedGo : Nat → List Char → List (List Char) × List Char
  | 0, buf => ([], buf)
  | fuel + 1, buf =>
    if hasSub openMarker buf = false then
      (if buf.isEmpty then [] else [buf], [])
    else if hasSub closeMarker buf then
      match demuxSplit buf with
      | some (pre, _tag, post) =>
        let next := feedGo fuel post
        ((if pre.isEmpty then [] else [pre]) ++ next.1, next.2)
      | none => ([], buf)
    else ([], buf)

/-! ## One streaming round (`main.py` lines 792-894) -/

/-- A structured tool call reported out-of-band by the backend
(`message["tool_calls"][i]["function"]`). -/
structure StructuredCall where
  name : String
  arguments : JVal

/-- One parsed stream line from the backend: content delta, structured tool
calls, and the `done` flag. -/
structure StreamLine where
  content : String
  toolCalls : List StructuredCall
  done : Bool

/-- Per-round state: `iteration_response`, `display_buffer`,
`tool_calls_found`, and the passthrough events emitted so far. -/
structure RoundState where
  iterationResponse : List Char
  displayBuffer : List Char
  toolCallsFound : List StructuredCall
  events : List (List Char)

/-- Process one stream line (lines 804-866): extend `tool_calls_found`,
then, when the content delta is nonempty, extend `iteration_response` and
`display_buffer` and run the demultiplexer loop. -/
def processLine (st : RoundState) (line : StreamLine) : RoundState :=
  let st1 :=
    if line.toolCalls.isEmpty then st
    else { st with toolCallsFound := st.toolCallsFound ++ line.toolCalls }
  if line.content.data.isEmpty then st1
  else
    let buf := st1.displayBuffer ++ line.content.data
    let fed := feedGo (buf.length + 1) buf
    { st1 with
      iterationResponse := st1.iterationResponse ++ line.content.data
      displayBuffer := fed.2
      events := st1.events ++ fed.1 }

/-- The `if done:` flush (lines 867-878): emit the remaining buffer only when it
is nonempty and free of `<tool_call`. -/
def flushDone (st : RoundState) : RoundState :=
  if st.displayBuffer.isEmpty = false ∧ hasSub openMarker st.displayBuffer = false then
    { st with events := st.events ++ [st.displayBuffer] }
  else st

/-- The `async for line` loop: process lines in order, stopping at the
first `done` line (which is flushed). -/
def runLines : RoundState → List StreamLine → RoundState
  | st, [] => st
  | st, line :: rest =>
    let st1 := processLine st line
    if line.done then flushDone st1 else runLines st1 rest

/-- A fresh round state. -/
def initRound : RoundState := ⟨[], [], [], []⟩

/-- Run one full streaming round. -/
def runRound (lines : List StreamLine) : RoundState := runLines initRound lines

/-- The extractor step (lines 882-894): structured calls, when any were
reported, take total precedence; otherwise fall back to parsing the inline
tags out of the accumulated `iteration_response`. -/
def roundToolCalls (st : RoundState) : List ToolCall :=
  if st.toolCallsFound.isEmpty then
    parse_tool_calls (String.mk st.iterationResponse)
  else
    st.toolCallsFound.map (fun tc => ⟨tc.name, tc.arguments⟩)

/-! ## Generation orchestrator loop (`main.py` lines 718-964)

The backend transport and the MCP tool executor are external; they enter
as parameters.  `backend` maps the current formatted message list to the
stream lines of one round (the loop re-opens a round after tool results are
appended, so the lines may depend on the messages).  `oracle` models
`mcp_client.call_tool`: it may return a result (truthy or falsy) or raise. -/

/-- Outcome of one `mcp_client.call_tool` invocation. -/
inductive ToolOutcome where
  | value (truthy : Bool) (dump : String)
  | exc (msg : String)

/-- One entry of `formatted_messages`. -/
inductive OMsg where
  | plain (role : String) (content : String)
  | assistantCall (call : ToolCall)
  | toolResult (content : String) (toolName : String)

/-- One client-visible SSE event. -/
inductive Event where
  | passthrough (text : String)
  | done

/-- The inline error text of lines 940-948. -/
def toolErrorText (name msg : String) : String :=
  "\n\n[Tool: " ++ name ++ " encountered an error: " ++ msg ++ "]\n"

/-- Orchestrator loop state across rounds. -/
structure LoopState where
  messages : List OMsg
  events : List Event
  fullResponse : List Char
  roundsOpened : Nat
  executedBatches : Nat
  toolInvocations : List ToolCall

/-- Execute one tool call (lines 904-948): the tool is invoked; a returned
result appends the assistant `tool_calls` entry and a tool-result entry
(whose content is the dump, or the literal `"Tool execution failed"` for a
falsy result); an exception is caught and yields only the inline error
passthrough — the two appends inside the `try` are skipped. -/
def execOne (oracle : String → JVal → ToolOutcome) (st : LoopState)
    (call : ToolCall) : LoopState :=
  let st1 := { st with toolInvocations := st.toolInvocations ++ [call] }
  match oracle call.name call.arguments with
  | ToolOutcome.value truthy dump =>
    { st1 with
      messages := st1.messages ++
        [OMsg.assistantCall call,
         OMsg.toolResult (if truthy then dump else "Tool execution failed") call.name] }
  | ToolOutcome.exc msg =>
    { st1 with
      events := st1.events ++ [Event.passthrough (toolErrorText call.name msg)] }

/-- `max_tool_iterations = 3` (line 720). -/
def maxToolIterations : Nat := 3

/-- The `while tool_iteration < max_tool_iterations` loop (lines 749-954);
the fuel is `max_tool_iterations - tool_iteration`, so an iteration is run
exactly when `tool_iteration < max_tool_iterations`.  Each iteration opens
one streaming round, forwards its passthrough events, extracts the round's
tool calls, and either breaks (no calls) or increments the counter and
executes every extracted call before looping. -/
def genLoopGo (backend : List OMsg → List StreamLine)
    (oracle : String → JVal → ToolOutcome) : Nat → LoopState → LoopState
  | 0, st => st
  | fuel + 1, st =>
    let round := runRound (backend st.messages)
    let st1 := { st with
      roundsOpened := st.roundsOpened + 1
      events := st.events ++ round.events.map (fun t => Event.passthrough (String.mk t))
      fullResponse := st.fullResponse ++ round.iterationResponse }
    let calls := roundToolCalls round
    if calls.isEmpty then st1
    else
      let st2 := { st1 with executedBatches := st1.executedBatches + 1 }
      genLoopGo backend oracle fuel (calls.foldl (execOne oracle) st2)

/-- The full generation flow after cache/template miss: run the bounded
loop from `tool_iteration = 0`, then emit the final done event
(lines 956-964). -/
def genLoop (backend : List OMsg → List StreamLine)
    (oracle : String → JVal → ToolOutcome) (initialMessages : List OMsg) : LoopState :=
  let final := genLoopGo backend oracle maxToolIterations
    { messages := initialMessages, events := [], fullResponse := [],
      roundsOpened := 0, executedBatches := 0, toolInvocations := [] }
  { final with events := final.events ++ [Event.done] }

/-! ### Round-level lemmas -/

/-- A content-only stream line. -/
def contentLine (c : String) : StreamLine := ⟨c, [], false⟩

/-- The terminating line of a round. -/
def doneLine : StreamLine := ⟨"", [], true⟩

/-- A round consisting of plain content chunks followed by `done`. -/
def linesOf (chunks : List String) : List StreamLine :=
  chunks.map contentLine ++ [doneLine]

lemma flushDone_ir (st : RoundState) :
    (flushDone st).iterationResponse = st.iterationResponse ∧
    (flushDone st).toolCallsFound = st.toolCallsFound := by
  unfold flushDone; split <;> exact ⟨rfl, rfl⟩

lemma processLine_content (st : RoundState) (c : String) :
    (processLine st (contentLine c)).iterationResponse
      = st.iterationResponse ++ c.data
    ∧ (processLine st (contentLine c)).toolCallsFound = st.toolCallsFound := by
  unfold processLine contentLine
  by_cases hc : c.data.isEmpty
  · have hnil : c.data = [] := List.isEmpty_iff.mp hc
    simp [hc, hnil]
  · simp [hc]

lemma runLines_cons_not_done (st : RoundState) (line : StreamLine)
    (rest : List StreamLine) (h : line.done = false) :
    runLines st (line :: rest) = runLines (processLine st line) rest := by
  show (if line.done = true then flushDone (processLine st line)
      else runLines (processLine st line) rest) = runLines (processLine st line) rest
  rw [h]
  simp

lemma runLines_linesOf_ir : ∀ (chunks : List String) (st : RoundState),
    (runLines st (linesOf chunks)).iterationResponse
      = st.iterationResponse ++ (chunks.map String.data).flatten
    ∧ (runLines st (linesOf chunks)).toolCallsFound = st.toolCallsFound := by
  intro chunks
  induction chunks with
  | nil =>
    intro st
    simp only [linesOf, List.map_nil, List.nil_append]
    have hrun : runLines st [doneLine] = flushDone (processLine st doneLine) := rfl
    have hpl : processLine st doneLine = st := by
      unfold processLine doneLine
      simp
    rw [hrun, hpl]
    simpa using flushDone_ir st
  | cons c cs ih =>
    intro st
    simp only [linesOf, List.map_cons, List.cons_append]
    rw [runLines_cons_not_done _ _ _ rfl]
    have h1 := processLine_content st c
    have h2 := ih (processLine st (contentLine c))
    simp only [linesOf] at h2
    rw [h2.1, h2.2, h1.1, h1.2]
    refine ⟨?_, rfl⟩
    simp [List.append_assoc]

/-! ### Claim C6 -/

/-- C6: when the backend reported structured tool calls in a round, the
extractor's canonical list is exactly those structured calls, whatever the
round's accumulated text contains — inline tags in the text are discarded,
never merged. -/
theorem structured_calls_take_total_precedence
    (found : List StructuredCall) (h : found ≠ [])
    (ir buf : List Char) (ev : List (List Char)) :
    roundToolCalls ⟨ir, buf, found, ev⟩
      = found.map (fun tc => ⟨tc.name, tc.arguments⟩) := by
  unfold roundToolCalls
  simp only [List.isEmpty_eq_false.mpr h]
  simp

/-- Witness for C6: one structured call wins over a round text carrying a
decodable inline tag for a different tool. -/
theorem structured_calls_take_total_precedence_witness :
    roundToolCalls ⟨"<tool_call name=\"y\">\x7b\x7d</tool_call>".data, [],
        [⟨"browser_navigate", JVal.jnull⟩], []⟩
      = [⟨"browser_navigate", JVal.jnull⟩] :=
  structured_calls_take_total_precedence [⟨"browser_navigate", JVal.jnull⟩]
    (List.cons_ne_nil _ _) "<tool_call name=\"y\">\x7b\x7d</tool_call>".data [] []

/-! ### Claim C3 -/

/-- C3: splitting a round's text at any byte offset across two feeds leaves
the round-end extraction unchanged: the extractor runs on the accumulated
`iteration_response`, which depends only on the concatenation of the
chunks.  Both the split feed and the single feed extract exactly
`parse_tool_calls` of the whole text. -/
theorem split_feed_extraction_eq_single_feed (text : List Char) (i : Nat) :
    roundToolCalls (runRound (linesOf
        [String.mk (text.take i), String.mk (text.drop i)]))
      = roundToolCalls (runRound (linesOf [String.mk text]))
    ∧ roundToolCalls (runRound (linesOf [String.mk text]))
      = parse_tool_calls (String.mk text) := by
  have h2 := runLines_linesOf_ir [String.mk (text.take i), String.mk (text.drop i)] initRound
  have h1 := runLines_linesOf_ir [String.mk text] initRound
  have hjoin : (([String.mk (text.take i), String.mk (text.drop i)]).map String.data).flatten
      = text := by
    simp [List.take_append_drop]
  have hjoin1 : (([String.mk text]).map String.data).flatten = text := by simp
  unfold runRound
  unfold roundToolCalls
  rw [h1.1, h1.2, h2.1, h2.2, hjoin, hjoin1]
  exact ⟨rfl, rfl⟩

/-! ### Substring lemmas -/

lemma hasSub_nil_pat (l : List Char) : hasSub [] l = true := by
  cases l with
  | nil => rfl
  | cons c rest => simp [hasSub, List.isPrefixOf]

lemma hasSub_of_isPrefixOf {pat l : List Char} (h : pat.isPrefixOf l = true) :
    hasSub pat l = true := by
  cases l with
  | nil =>
    cases pat with
    | nil => rfl
    | cons p ps => simp [List.isPrefixOf] at h
  | cons c rest => simp [hasSub, h]

lemma hasSub_append_right {pat : List Char} (a : List Char) {b : List Char}
    (h : hasSub pat b = true) : hasSub pat (a ++ b) = true := by
  induction a with
  | nil => simpa using h
  | cons x xs ih => simp [hasSub, ih]

lemma hasSub_append_left {pat : List Char} {a : List Char} (b : List Char)
    (h : hasSub pat a = true) : hasSub pat (a ++ b) = true := by
  induction a with
  | nil =>
    cases pat with
    | nil => exact hasSub_nil_pat b
    | cons p ps => simp [hasSub] at h
  | cons x xs ih =>
    simp only [hasSub, Bool.or_eq_true] at h
    rcases h with h | h
    · have hpre : pat <+: (x :: xs) ++ b :=
        (List.isPrefixOf_iff_prefix.mp h).trans (List.prefix_append _ _)
      exact hasSub_of_isPrefixOf (List.isPrefixOf_iff_prefix.mpr hpre)
    · simp [hasSub, ih h]

lemma hasSub_false_of_append_left {pat a b : List Char}
    (h : hasSub pat (a ++ b) = false) : hasSub pat a = false := by
  by_contra hcon
  rw [Bool.not_eq_false] at hcon
  rw [hasSub_append_left b hcon] at h
  cases h

lemma hasSub_false_of_append_right {pat a b : List Char}
    (h : hasSub pat (a ++ b) = false) : hasSub pat b = false := by
  by_contra hcon
  rw [Bool.not_eq_false] at hcon
  rw [hasSub_append_right a hcon] at h
  cases h

/-! ### Claim C5 -/

lemma processLine_done (st : RoundState) : processLine st doneLine = st := by
  unfold processLine doneLine
  simp

lemma flushDone_empty_buffer {st : RoundState} (h : st.displayBuffer = []) :
    flushDone st = st := by
  unfold flushDone
  rw [if_neg]
  simp [h]

lemma processLine_clean (st : RoundState) (c : String)
    (hbuf : st.displayBuffer = [])
    (hc : hasSub openMarker c.data = false) :
    (processLine st (contentLine c)).events
        = st.events ++ (if c.data.isEmpty then [] else [c.data])
    ∧ (processLine st (contentLine c)).displayBuffer = [] := by
  unfold processLine contentLine
  by_cases hce : c.data.isEmpty
  · simp [hce, hbuf]
  · simp only [hce, Bool.false_eq_true, if_false]
    simp only [List.isEmpty_nil, if_true, hbuf, List.nil_append]
    have hfeed : feedGo (c.data.length + 1) c.data
        = (if c.data.isEmpty then [] else [c.data], []) := by
      simp only [feedGo, hc]
      simp
    rw [hfeed]
    simp [hce]

lemma runLines_clean : ∀ (chunks : List String) (st : RoundState),
    st.displayBuffer = [] →
    hasSub openMarker ((chunks.map String.data).flatten) = false →
    (runLines st (linesOf chunks)).events.flatten
        = st.events.flatten ++ (chunks.map String.data).flatten
    ∧ (runLines st (linesOf chunks)).displayBuffer = [] := by
  intro chunks
  induction chunks with
  | nil =>
    intro st hbuf hclean
    simp only [linesOf, List.map_nil, List.nil_append]
    have hrun : runLines st [doneLine] = flushDone (processLine st doneLine) := rfl
    rw [hrun, processLine_done, flushDone_empty_buffer hbuf]
    simp [hbuf]
  | cons c cs ih =>
    intro st hbuf hclean
    simp only [linesOf, List.map_cons, List.cons_append, List.flatten_cons] at hclean ⊢
    rw [runLines_cons_not_done _ _ _ rfl]
    have hc : hasSub openMarker c.data = false := hasSub_false_of_append_left hclean
    have hcs : hasSub openMarker ((cs.map String.data).flatten) = false :=
      hasSub_false_of_append_right hclean
    have h1 := processLine_clean st c hbuf hc
    have h2 := ih (processLine st (contentLine c)) h1.2 hcs
    simp only [linesOf] at h2
    refine ⟨?_, h2.2⟩
    rw [h2.1, h1.1]
    by_cases hce : c.data.isEmpty
    · have : c.data = [] := List.isEmpty_iff.mp hce
      simp [hce, this]
    · simp [hce, List.append_assoc]

/-- C5: for every chunk sequence whose concatenation contains no
tag-opening substring `<tool_call`, the concatenation of the demultiplexer
passthrough events, in emission order, is exactly the concatenation of the
chunks — nothing lost, reordered, or added. -/
theorem clean_stream_passthrough_exact (chunks : List String)
    (h : hasSub openMarker ((chunks.map String.data).flatten) = false) :
    (runRound (linesOf chunks)).events.flatten = (chunks.map String.data).flatten := by
  have hmain := runLines_clean chunks initRound rfl h
  simpa [runRound, initRound] using hmain.1

/-- Witness for C5 on the chunks `"hello "`, `"world"`. -/
theorem clean_stream_passthrough_exact_witness :
    (runRound (linesOf ["hello ", "world"])).events.flatten
      = ((["hello ", "world"] : List String).map String.data).flatten :=
  clean_stream_passthrough_exact ["hello ", "world"] (by decide)

/-! ### Claim C4 -/

/-- Counterexample to C4: an opening marker split across chunk boundaries
is not withheld.  The buffer test is the plain substring check
`'<tool_call' in display_buffer` (line 824), so after the first chunk
`"<tool_"` — no closing marker has arrived — the fragment is emitted as
passthrough, and the rest of the tag follows with the next chunk: the
whole tag text reaches the client. -/
theorem open_marker_split_leak :
    (runRound [⟨"<tool_", [], false⟩]).events = ["<tool_".data]
    ∧ (runRound (linesOf ["<tool_", "call name=\"x\">\x7b\x7d</tool_call>"])).events
        = ["<tool_".data, "call name=\"x\">\x7b\x7d</tool_call>".data] := by
  exact ⟨rfl, rfl⟩

/-- C4 as amended: once a complete opening marker `<tool_call` is in the
buffer without a matching closing marker, the demultiplexer emits nothing
and waits (and the round-end flush also withholds such a buffer); but an
opening marker split across chunk boundaries is not protected — the
fragment before the boundary is emitted immediately. -/
theorem incomplete_tag_withheld :
    (∀ (buf : List Char) (fuel : Nat), hasSub openMarker buf = true →
        hasSub closeMarker buf = false → feedGo (fuel + 1) buf = ([], buf))
    ∧ (∀ st : RoundState, hasSub openMarker st.displayBuffer = true →
        flushDone st = st) := by
  constructor
  · intro buf fuel h1 h2
    simp only [feedGo, h1, h2]
    simp
  · intro st h
    unfold flushDone
    rw [if_neg]
    simp [h]

/-- Witness for the amended C4: a buffer holding a partial tag
`a<tool_call na` emits nothing. -/
theorem incomplete_tag_withheld_witness :
    feedGo ("a<tool_call na".data.length + 1) "a<tool_call na".data
      = ([], "a<tool_call na".data) :=
  incomplete_tag_withheld.1 "a<tool_call na".data "a<tool_call na".data.length
    (by decide) (by decide)

/-! ### Loop lemmas -/

lemma execOne_counters (oracle : String → JVal → ToolOutcome) (st : LoopState)
    (call : ToolCall) :
    (execOne oracle st call).roundsOpened = st.roundsOpened
    ∧ (execOne oracle st call).executedBatches = st.executedBatches := by
  unfold execOne
  cases oracle call.name call.arguments <;> simp

lemma foldl_execOne_counters (oracle : String → JVal → ToolOutcome) :
    ∀ (calls : List ToolCall) (st : LoopState),
      (calls.foldl (execOne oracle) st).roundsOpened = st.roundsOpened
      ∧ (calls.foldl (execOne oracle) st).executedBatches = st.executedBatches := by
  intro calls
  induction calls with
  | nil => intro st; exact ⟨rfl, rfl⟩
  | cons c cs ih =>
    intro st
    simp only [List.foldl_cons]
    have h1 := execOne_counters oracle st c
    have h2 := ih (execOne oracle st c)
    exact ⟨h2.1.trans h1.1, h2.2.trans h1.2⟩

lemma genLoopGo_adversarial (backend : List OMsg → List StreamLine)
    (oracle : String → JVal → ToolOutcome)
    (hadv : ∀ msgs, (roundToolCalls (runRound (backend msgs))).isEmpty = false) :
    ∀ (fuel : Nat) (st : LoopState),
      (genLoopGo backend oracle fuel st).roundsOpened = st.roundsOpened + fuel
      ∧ (genLoopGo backend oracle fuel st).executedBatches = st.executedBatches + fuel := by
  intro fuel
  induction fuel with
  | zero => intro st; simp [genLoopGo]
  | succ n ih =>
    intro st
    simp only [genLoopGo, hadv st.messages, Bool.false_eq_true, if_false]
    have hfold := foldl_execOne_counters oracle
      (roundToolCalls (runRound (backend st.messages)))
    have hrec := ih ((roundToolCalls (runRound (backend st.messages))).foldl
      (execOne oracle)
      { st with
        roundsOpened := st.roundsOpened + 1
        events := st.events ++ (runRound (backend st.messages)).events.map
          (fun t => Event.passthrough (String.mk t))
        fullResponse := st.fullResponse ++ (runRound (backend st.messages)).iterationResponse
        executedBatches := st.executedBatches + 1 })
    rw [hrec.1, hrec.2, (hfold _).1, (hfold _).2]
    constructor <;> simp <;> omega

lemma genLoop_rounds_eq (backend : List OMsg → List StreamLine)
    (oracle : String → JVal → ToolOutcome) (init : List OMsg) :
    (genLoop backend oracle init).roundsOpened
      = (genLoopGo backend oracle maxToolIterations
          { messages := init, events := [], fullResponse := [],
            roundsOpened := 0, executedBatches := 0, toolInvocations := [] }).roundsOpened
    ∧ (genLoop backend oracle init).executedBatches
      = (genLoopGo backend oracle maxToolIterations
          { messages := init, events := [], fullResponse := [],
            roundsOpened := 0, executedBatches := 0, toolInvocations := [] }).executedBatches := by
  unfold genLoop
  exact ⟨rfl, rfl⟩

lemma genLoop_last_event (backend : List OMsg → List StreamLine)
    (oracle : String → JVal → ToolOutcome) (init : List OMsg) :
    (genLoop backend oracle init).events.getLast? = some Event.done := by
  unfold genLoop
  exact List.getLast?_concat _

/-! ### Claim C1 -/

/-- C1: against an adversarial backend whose every round reports exactly
one tool call, the generation loop opens exactly `max_tool_iterations = 3`
streaming rounds and no more — `genLoop` is a total function, so the loop
cannot run forever, and its round counter is exactly the budget. -/
theorem adversarial_backend_opens_exactly_max_rounds
    (backend : List OMsg → List StreamLine) (oracle : String → JVal → ToolOutcome)
    (init : List OMsg)
    (hadv : ∀ msgs, (roundToolCalls (runRound (backend msgs))).length = 1) :
    (genLoop backend oracle init).roundsOpened = maxToolIterations
    ∧ maxToolIterations = 3 := by
  have hne : ∀ msgs, (roundToolCalls (runRound (backend msgs))).isEmpty = false := by
    intro msgs
    exact List.isEmpty_eq_false.mpr (List.ne_nil_of_length_pos (by rw [hadv msgs]; omega))
  have hmain := genLoopGo_adversarial backend oracle hne maxToolIterations
    { messages := init, events := [], fullResponse := [],
      roundsOpened := 0, executedBatches := 0, toolInvocations := [] }
  refine ⟨?_, rfl⟩
  rw [(genLoop_rounds_eq backend oracle init).1, hmain.1]
  rfl

/-- The structured call the adversarial backend reports every round. -/
def advCall : StructuredCall :=
  ⟨"browser_navigate", JVal.jobj [("url", JVal.jstr "https://www.youtube.com")]⟩

/-- A backend that reports one structured tool call and finishes, in every
round regardless of the message list. -/
def advBackend : List OMsg → List StreamLine := fun _ => [⟨"", [advCall], true⟩]

/-- An executor whose tools always succeed with a truthy result. -/
def okOracle : String → JVal → ToolOutcome := fun _ _ => ToolOutcome.value true "\"ok\""

/-- Witness for C1: the concrete adversarial run opens exactly 3 rounds. -/
theorem adversarial_backend_opens_exactly_max_rounds_witness :
    (genLoop advBackend okOracle [OMsg.plain "user" "open youtube"]).roundsOpened = 3 := by
  have h := adversarial_backend_opens_exactly_max_rounds advBackend okOracle
    [OMsg.plain "user" "open youtube"] (fun _ => rfl)
  rw [h.1, h.2]

/-! ### Claim C2 -/

/-- The adversarial run with an always-succeeding executor. -/
def advRunOk : LoopState := genLoop advBackend okOracle [OMsg.plain "user" "open youtube"]

/-- Counterexample to C2: in the adversarial run every one of the three
rounds yields a nonzero tool-call list, and every batch — including the one
whose execution raises the iteration count to `max_iterations` — is
executed: three rounds, three executed batches, three tool invocations.
The claim predicts that the batch pending when the budget is exhausted is
left unexecuted (at most two invocations); the code has no such path — the
increment at line 902 happens before the execution loop at line 904, and
the budget check only guards opening a further round. -/
theorem final_round_batch_is_executed :
    advRunOk.roundsOpened = 3 ∧ advRunOk.executedBatches = 3
    ∧ advRunOk.toolInvocations.length = 3 ∧ advRunOk.events.getLast? = some Event.done := by
  exact ⟨rfl, rfl, rfl, rfl⟩

/-- C2 as amended: a round's nonzero tool-call list is always executed, even
when this exhausts the iteration budget; exhaustion then stops the loop
without opening a further round and is surfaced as the ordinary final
`Done` event (not an error). -/
theorem budget_exhaustion_executes_then_done
    (backend : List OMsg → List StreamLine) (oracle : String → JVal → ToolOutcome)
    (init : List OMsg)
    (hadv : ∀ msgs, (roundToolCalls (runRound (backend msgs))).isEmpty = false) :
    (genLoop backend oracle init).roundsOpened = maxToolIterations
    ∧ (genLoop backend oracle init).executedBatches = maxToolIterations
    ∧ (genLoop backend oracle init).events.getLast? = some Event.done := by
  have hmain := genLoopGo_adversarial backend oracle hadv maxToolIterations
    { messages := init, events := [], fullResponse := [],
      roundsOpened := 0, executedBatches := 0, toolInvocations := [] }
  have heq := genLoop_rounds_eq backend oracle init
  refine ⟨?_, ?_, genLoop_last_event backend oracle init⟩
  · rw [heq.1, hmain.1]; rfl
  · rw [heq.2, hmain.2]; rfl

/-- Witness for the amended C2: the concrete adversarial run executes all
three batches and ends with `Done`. -/
theorem budget_exhaustion_executes_then_done_witness :
    (genLoop advBackend okOracle [OMsg.plain "user" "open youtube"]).executedBatches
        = maxToolIterations
    ∧ (genLoop advBackend okOracle [OMsg.plain "user" "open youtube"]).events.getLast?
        = some Event.done := by
  have h := budget_exhaustion_executes_then_done advBackend okOracle
    [OMsg.plain "user" "open youtube"] (fun _ => rfl)
  exact ⟨h.2.1, h.2.2⟩

/-! ### Claim C9 -/

/-- An executor whose tools always raise. -/
def failOracle : String → JVal → ToolOutcome := fun _ _ => ToolOutcome.exc "boom"

/-- The adversarial run with an always-raising executor. -/
def advRunFail : LoopState :=
  genLoop advBackend failOracle [OMsg.plain "user" "open youtube"]

/-- Counterexample to C9: when tool execution raises, the inline error
passthrough is emitted (three rounds, three errors, then `Done`) but the
message list is left untouched — no tool-result entry with a failure marker
is ever appended, because the two appends sit inside the `try` block after
the raising call (lines 911-936) and the `except` handler (lines 938-948)
only yields the error chunk. -/
theorem tool_exception_appends_no_transcript_entry :
    advRunFail.events
      = [Event.passthrough (toolErrorText "browser_navigate" "boom"),
         Event.passthrough (toolErrorText "browser_navigate" "boom"),
         Event.passthrough (toolErrorText "browser_navigate" "boom"),
         Event.done]
    ∧ advRunFail.messages = [OMsg.plain "user" "open youtube"] := by
  exact ⟨rfl, rfl⟩

/-- C9 as amended: a raising tool call is caught and surfaced to the client
as an inline error passthrough, leaving the transcript untouched; the
literal `"Tool execution failed"` tool-result entry is appended only on the
non-raising path where the tool returns a falsy result, which emits no
inline error.  Either way the loop continues and the stream still
terminates with `Done`. -/
theorem tool_failure_two_disjoint_paths
    (oracle : String → JVal → ToolOutcome) (st : LoopState) (call : ToolCall) :
    (∀ msg, oracle call.name call.arguments = ToolOutcome.exc msg →
      (execOne oracle st call).events
          = st.events ++ [Event.passthrough (toolErrorText call.name msg)]
      ∧ (execOne oracle st call).messages = st.messages)
    ∧ (∀ dump, oracle call.name call.arguments = ToolOutcome.value false dump →
      (execOne oracle st call).messages
          = st.messages ++ [OMsg.assistantCall call,
              OMsg.toolResult "Tool execution failed" call.name]
      ∧ (execOne oracle st call).events = st.events)
    ∧ (∀ (backend : List OMsg → List StreamLine) (init : List OMsg),
        (genLoop backend oracle init).events.getLast? = some Event.done) := by
  refine ⟨?_, ?_, fun backend init => genLoop_last_event backend oracle init⟩
  · intro msg h
    constructor <;> simp [execOne, h]
  · intro dump h
    constructor <;> simp [execOne, h]

/-- Witness for the amended C9: a raising call emits exactly the inline
error and appends nothing. -/
theorem tool_failure_two_disjoint_paths_witness :
    (execOne failOracle ⟨[], [], [], 0, 0, []⟩ ⟨"t", JVal.jnull⟩).events
      = [Event.passthrough (toolErrorText "t" "boom")]
    ∧ (execOne failOracle ⟨[], [], [], 0, 0, []⟩ ⟨"t", JVal.jnull⟩).messages = [] := by
  have h := (tool_failure_two_disjoint_paths failOracle ⟨[], [], [], 0, 0, []⟩
    ⟨"t", JVal.jnull⟩).1 "boom" rfl
  exact ⟨h.1, h.2⟩

/-! ### Scanner lemmas for C8 -/

lemma isPrefixOf_append_self (l t : List Char) : l.isPrefixOf (l ++ t) = true :=
  List.isPrefixOf_iff_prefix.mpr (List.prefix_append l t)

lemma splitOnSub_eq : ∀ {pat l a b : List Char},
    splitOnSub pat l = some (a, b) → l = a ++ pat ++ b := by
  intro pat l
  induction l with
  | nil =>
    intro a b h
    simp only [splitOnSub] at h
    by_cases hp : pat.isEmpty
    · rw [if_pos hp] at h
      cases h
      simp [List.isEmpty_iff.mp hp]
    · rw [if_neg hp] at h; cases h
  | cons c rest ih =>
    intro a b h
    simp only [splitOnSub] at h
    by_cases hp : pat.isPrefixOf (c :: rest) = true
    · rw [if_pos hp] at h
      cases h
      obtain ⟨t, ht⟩ := List.isPrefixOf_iff_prefix.mp hp
      have hdrop : (c :: rest).drop pat.length = t := by
        rw [← ht, List.drop_left]
      rw [hdrop]
      simp [← ht]
    · rw [if_neg hp] at h
      cases hrec : splitOnSub pat rest with
      | none => rw [hrec] at h; cases h
      | some p =>
        rw [hrec] at h
        cases p with
        | mk a' b' =>
          simp only at h
          cases h
          simp [ih hrec]

/-- Splitting at the first occurrence of a pattern whose head character does
not occur before the occurrence. -/
lemma splitOnSub_boundary {hd : Char} {tl : List Char} :
    ∀ (pre post : List Char), (∀ x ∈ pre, x ≠ hd) →
      splitOnSub (hd :: tl) (pre ++ (hd :: tl) ++ post) = some (pre, post) := by
  intro pre
  induction pre with
  | nil =>
    intro post _
    simp only [List.nil_append, splitOnSub, List.append_eq]
    rw [show hd :: (tl ++ post) = (hd :: tl) ++ post from rfl]
    rw [if_pos (isPrefixOf_append_self (hd :: tl) post)]
    rw [List.drop_left]
  | cons p pre' ih =>
    intro post hpre
    have hp : p ≠ hd := hpre p (List.mem_cons_self _ _)
    simp only [List.cons_append, splitOnSub, List.append_eq]
    have hnp : (hd :: tl).isPrefixOf (p :: (pre' ++ (hd :: tl) ++ post)) = false := by
      simp only [List.isPrefixOf]
      simp [Ne.symm hp]
    rw [hnp]
    simp only [Bool.false_eq_true, if_false]
    rw [ih post (fun x hx => hpre x (List.mem_cons_of_mem _ hx))]

lemma matchTagAt_none_of_head_ne {c : Char} (rest : List Char) (h : c ≠ '<') :
    matchTagAt (c :: rest) = none := by
  unfold matchTagAt
  rw [if_neg]
  intro hcon
  have := List.isPrefixOf_iff_prefix.mp hcon
  obtain ⟨t, ht⟩ := this
  have : '<' = c := by
    have := congrArg (fun l => l.head?) ht
    simpa using this
  exact h this.symm

lemma matchTagAt_nil : matchTagAt [] = none := by
  unfold matchTagAt
  rw [if_neg]
  intro hcon
  have := List.isPrefixOf_iff_prefix.mp hcon
  obtain ⟨t, ht⟩ := this
  cases ht

/-- The attribute span ` name="NAME"` of a well-formed tag. -/
def attrsOf (name : List Char) : List Char := " name=\"".data ++ name ++ ['"']

/-- A well-formed inline tag `<tool_call name="NAME">BODY</tool_call>`. -/
def tagChars (name body : List Char) : List Char :=
  openMarker ++ attrsOf name ++ '>' :: (body ++ closeMarker)

lemma tagChars_decomp (name body rest : List Char) :
    tagChars name body ++ rest
      = "<tool_call name=\"".data
        ++ (name ++ '"' :: '>' :: (body ++ (closeMarker ++ rest))) := by
  have hlit : ("<tool_call".data ++ " name=\"".data : List Char)
      = "<tool_call name=\"".data := by decide
  simp only [tagChars, attrsOf, openMarker, List.append_assoc, List.cons_append,
    List.singleton_append, List.nil_append, ← hlit]

lemma matchTagAt_tag (name body rest : List Char)
    (hname : name ≠ []) (hnameq : ∀ c ∈ name, c ≠ '"')
    (hbody : ∀ c ∈ body, c ≠ '<') :
    matchTagAt (tagChars name body ++ rest)
      = some (String.mk name, String.mk body, rest) := by
  rw [tagChars_decomp]
  unfold matchTagAt
  rw [if_pos (isPrefixOf_append_self _ _)]
  have hdrop : ("<tool_call name=\"".data
      ++ (name ++ '"' :: '>' :: (body ++ (closeMarker ++ rest)))).drop 17
      = name ++ '"' :: '>' :: (body ++ (closeMarker ++ rest)) := by
    rw [show (17 : Nat) = ("<tool_call name=\"".data).length from by decide]
    exact List.drop_left _ _
  rw [hdrop]
  have hq : splitOnSub ['"'] (name ++ '"' :: '>' :: (body ++ (closeMarker ++ rest)))
      = some (name, '>' :: (body ++ (closeMarker ++ rest))) := by
    have := @splitOnSub_boundary '"' []
      name ('>' :: (body ++ (closeMarker ++ rest))) hnameq
    simpa using this
  simp only [hq]
  rw [if_neg (by simpa using List.isEmpty_eq_false.mpr hname)]
  have hclose : splitOnSub closeMarker (body ++ (closeMarker ++ rest))
      = some (body, rest) := by
    have := @splitOnSub_boundary '<' "/tool_call>".data
      body rest hbody
    simpa [closeMarker, List.append_assoc] using this
  simp only [hclose]

lemma matchTagAt_remainder_lt : ∀ {l : List Char} {nm bd : String} {r : List Char},
    matchTagAt l = some (nm, bd, r) → r.length < l.length := by
  intro l nm bd r h
  unfold matchTagAt at h
  split at h
  · rename_i hp
    obtain ⟨t, ht⟩ := List.isPrefixOf_iff_prefix.mp hp
    split at h
    · simp at h
    · rename_i name r2 heq1
      split at h
      · simp at h
      · rename_i hne
        split at h
        · rename_i r3
          split at h
          · simp at h
          · rename_i body rest heq2
            obtain ⟨h1, h2, h3⟩ : ({ data := name } : String) = nm
                ∧ ({ data := body } : String) = bd ∧ rest = r := by
              simpa using h
            subst h3
            have e1 : l.drop 17 = name ++ ['"'] ++ ('>' :: r3) := splitOnSub_eq heq1
            have e2 : r3 = body ++ closeMarker ++ rest := splitOnSub_eq heq2
            have hlit_len : ("<tool_call name=\"".data).length = 17 := by decide
            have hlen1 : l.length = 17 + t.length := by
              rw [← ht, List.length_append, hlit_len]
            have hlen2 : t = l.drop 17 := by
              rw [← ht, ← hlit_len, List.drop_left]
            have e1l := congrArg List.length e1
            have e2l := congrArg List.length e2
            have hclen : closeMarker.length = 12 := by decide
            simp only [List.length_append, List.length_cons, hclen] at e1l e2l
            rw [hlen2] at hlen1
            omega
        · simp at h
  · simp at h

/-- The fuel-independent tag scan: `findCallsGo` at fuel = input length. -/
def findCallsF (l : List Char) : List (String × String) := findCallsGo l.length l

lemma findCallsGo_fuel : ∀ (fuel : Nat) (l : List Char), l.length ≤ fuel →
    findCallsGo fuel l = findCallsF l := by
  intro fuel
  induction fuel using Nat.strong_induction_on with
  | _ fuel ih =>
    intro l hl
    cases fuel with
    | zero =>
      cases l with
      | nil => rfl
      | cons c r => simp at hl
    | succ n =>
      cases l with
      | nil => rfl
      | cons c rest =>
        have hrest : rest.length ≤ n := by
          simp only [List.length_cons] at hl; omega
        cases hm : matchTagAt (c :: rest) with
        | none =>
          have lhs : findCallsGo (n + 1) (c :: rest) = findCallsGo n rest := by
            simp only [findCallsGo, hm]
          have rhs : findCallsF (c :: rest) = findCallsGo rest.length rest := by
            show findCallsGo (rest.length + 1) (c :: rest) = _
            simp only [findCallsGo, hm]
          rw [lhs, rhs]
          rw [ih n (Nat.lt_succ_self n) rest hrest,
            ih rest.length (by omega) rest (le_refl _)]
        | some nbr =>
          obtain ⟨nm, bd, rem⟩ := nbr
          have hlt : rem.length < rest.length + 1 := matchTagAt_remainder_lt hm
          have lhs : findCallsGo (n + 1) (c :: rest) = (nm, bd) :: findCallsGo n rem := by
            simp only [findCallsGo, hm]
          have rhs : findCallsF (c :: rest) = (nm, bd) :: findCallsGo rest.length rem := by
            show findCallsGo (rest.length + 1) (c :: rest) = _
            simp only [findCallsGo, hm]
          rw [lhs, rhs]
          rw [ih n (Nat.lt_succ_self n) rem (by omega),
            ih rest.length (by omega) rem (by omega)]

lemma findCallsF_cons_none {c : Char} {rest : List Char}
    (h : matchTagAt (c :: rest) = none) :
    findCallsF (c :: rest) = findCallsF rest := by
  show findCallsGo (rest.length + 1) (c :: rest) = _
  simp only [findCallsGo, h]
  exact findCallsGo_fuel rest.length rest (le_refl _)

lemma findCallsF_match : ∀ {l : List Char} {nm bd : String} {rem : List Char},
    matchTagAt l = some (nm, bd, rem) →
    findCallsF l = (nm, bd) :: findCallsF rem := by
  intro l nm bd rem h
  cases l with
  | nil => rw [matchTagAt_nil] at h; cases h
  | cons c rest =>
    show findCallsGo (rest.length + 1) (c :: rest) = _
    simp only [findCallsGo, h]
    have hlt : rem.length < rest.length + 1 := matchTagAt_remainder_lt h
    rw [findCallsGo_fuel rest.length rem (by omega)]

lemma findCallsF_clean_prefix : ∀ (pre l : List Char), (∀ x ∈ pre, x ≠ '<') →
    findCallsF (pre ++ l) = findCallsF l := by
  intro pre
  induction pre with
  | nil => intro l _; rfl
  | cons p pre' ih =>
    intro l hpre
    rw [List.cons_append,
      findCallsF_cons_none (matchTagAt_none_of_head_ne _ (hpre p (List.mem_cons_self _ _)))]
    exact ih l (fun x hx => hpre x (List.mem_cons_of_mem _ hx))

lemma findCallsF_clean : ∀ (l : List Char), (∀ x ∈ l, x ≠ '<') →
    findCallsF l = [] := by
  intro l
  induction l with
  | nil => intro _; rfl
  | cons c rest ih =>
    intro hl
    rw [findCallsF_cons_none (matchTagAt_none_of_head_ne _ (hl c (List.mem_cons_self _ _)))]
    exact ih (fun x hx => hl x (List.mem_cons_of_mem _ hx))

lemma findCallsF_tag (name body rest : List Char)
    (hname : name ≠ []) (hnameq : ∀ c ∈ name, c ≠ '"')
    (hbody : ∀ c ∈ body, c ≠ '<') :
    findCallsF (tagChars name body ++ rest)
      = (String.mk name, String.mk body) :: findCallsF rest :=
  findCallsF_match (matchTagAt_tag name body rest hname hnameq hbody)

lemma hasSub_cons_of {pat : List Char} (x : Char) {l : List Char}
    (h : hasSub pat l = true) : hasSub pat (x :: l) = true := by
  simp [hasSub, h]

lemma hasSub_clean {hd : Char} {tl : List Char} : ∀ {l : List Char},
    (∀ x ∈ l, x ≠ hd) → hasSub (hd :: tl) l = false := by
  intro l
  induction l with
  | nil => intro _; rfl
  | cons c rest ih =>
    intro hl
    have hc : c ≠ hd := hl c (List.mem_cons_self _ _)
    simp only [hasSub, List.isPrefixOf, Bool.or_eq_false_iff]
    constructor
    · simp [Ne.symm hc]
    · exact ih (fun x hx => hl x (List.mem_cons_of_mem _ hx))

lemma attrsOf_no_gt {name : List Char} (hnamegt : ∀ x ∈ name, x ≠ '>') :
    ∀ x ∈ attrsOf name, x ≠ '>' := by
  intro x hx
  simp only [attrsOf, List.mem_append] at hx
  rcases hx with (hx | hx) | hx
  · revert hx; revert x; decide
  · exact hnamegt x hx
  · simp only [List.mem_singleton] at hx
    subst hx; decide

lemma demuxSplit_tag (pre name body post : List Char)
    (hpre : ∀ x ∈ pre, x ≠ '<')
    (hnamegt : ∀ x ∈ name, x ≠ '>')
    (hbody : ∀ x ∈ body, x ≠ '<') :
    demuxSplit (pre ++ tagChars name body ++ post)
      = some (pre, openMarker ++ attrsOf name ++ '>' :: (body ++ closeMarker), post) := by
  have hform : pre ++ tagChars name body ++ post
      = pre ++ openMarker ++ (attrsOf name ++ '>' :: (body ++ (closeMarker ++ post))) := by
    simp [tagChars, List.append_assoc]
  have h1 : splitOnSub openMarker (pre ++ tagChars name body ++ post)
      = some (pre, attrsOf name ++ '>' :: (body ++ (closeMarker ++ post))) := by
    rw [hform, show openMarker = '<' :: "tool_call".data from by decide]
    exact splitOnSub_boundary pre _ hpre
  have h2 : splitOnSub ['>'] (attrsOf name ++ '>' :: (body ++ (closeMarker ++ post)))
      = some (attrsOf name, body ++ (closeMarker ++ post)) := by
    have := @splitOnSub_boundary '>' []
      (attrsOf name) (body ++ (closeMarker ++ post)) (attrsOf_no_gt hnamegt)
    simpa using this
  have h3 : splitOnSub closeMarker (body ++ (closeMarker ++ post))
      = some (body, post) := by
    have := @splitOnSub_boundary '<' "/tool_call>".data body post hbody
    simpa [closeMarker, List.append_assoc] using this
  unfold demuxSplit
  simp only [h1, h2, h3]

lemma feedGo_strips_tag (pre name body post : List Char)
    (hpre : ∀ x ∈ pre, x ≠ '<')
    (hnamegt : ∀ x ∈ name, x ≠ '>')
    (hbody : ∀ x ∈ body, x ≠ '<')
    (hpost : ∀ x ∈ post, x ≠ '<') :
    ∀ fuel, post.length + 1 ≤ fuel →
      (feedGo (fuel + 1) (pre ++ tagChars name body ++ post)).1.flatten = pre ++ post
      ∧ (feedGo (fuel + 1) (pre ++ tagChars name body ++ post)).2 = [] := by
  intro fuel hfuel
  have hform : pre ++ tagChars name body ++ post
      = pre ++ (openMarker ++ (attrsOf name ++ '>' :: (body ++ (closeMarker ++ post)))) := by
    simp [tagChars, List.append_assoc]
  have hopen : hasSub openMarker (pre ++ tagChars name body ++ post) = true := by
    rw [hform]
    exact hasSub_append_right pre
      (hasSub_of_isPrefixOf (isPrefixOf_append_self _ _))
  have hclose : hasSub closeMarker (pre ++ tagChars name body ++ post) = true := by
    rw [hform]
    exact hasSub_append_right pre (hasSub_append_right openMarker
      (hasSub_append_right (attrsOf name) (hasSub_cons_of '>'
        (hasSub_append_right body
          (hasSub_of_isPrefixOf (isPrefixOf_append_self _ _))))))
  have hpostclean : hasSub openMarker post = false := by
    rw [show openMarker = '<' :: "tool_call".data from by decide]
    exact hasSub_clean hpost
  have hstep : feedGo (fuel + 1) (pre ++ tagChars name body ++ post)
      = ((if pre.isEmpty then [] else [pre]) ++ (feedGo fuel post).1,
         (feedGo fuel post).2) := by
    simp only [feedGo, hopen, hclose, demuxSplit_tag pre name body post hpre hnamegt hbody]
    simp
  have hrec : (feedGo fuel post).1 = (if post.isEmpty then [] else [post])
      ∧ (feedGo fuel post).2 = [] := by
    cases fuel with
    | zero => omega
    | succ f =>
      simp only [feedGo, hpostclean]
      simp
  rw [hstep, hrec.1]
  refine ⟨?_, hrec.2⟩
  by_cases h1 : pre.isEmpty <;> by_cases h2 : post.isEmpty <;>
    simp [h1, h2, List.isEmpty_iff.mp, List.isEmpty_iff]

lemma processLine_feed (st : RoundState) (l : List Char) (hbuf : st.displayBuffer = [])
    (hne : l.isEmpty = false) :
    processLine st (contentLine (String.mk l))
      = { st with iterationResponse := st.iterationResponse ++ l
                  displayBuffer := (feedGo (l.length + 1) l).2
                  events := st.events ++ (feedGo (l.length + 1) l).1 } := by
  unfold processLine contentLine
  simp [hbuf, hne]

lemma runRound_strips_tag (pre name body post : List Char)
    (hpre : ∀ x ∈ pre, x ≠ '<')
    (hnamegt : ∀ x ∈ name, x ≠ '>')
    (hbody : ∀ x ∈ body, x ≠ '<')
    (hpost : ∀ x ∈ post, x ≠ '<') :
    (runRound (linesOf [String.mk (pre ++ tagChars name body ++ post)])).events.flatten
      = pre ++ post
    ∧ (runRound (linesOf [String.mk (pre ++ tagChars name body ++ post)])).toolCallsFound
      = [] := by
  have hopenlen : openMarker.length = 10 := by decide
  have htaglen : (tagChars name body).length
      = openMarker.length + ((attrsOf name).length + ('>' :: (body ++ closeMarker)).length) := by
    simp [tagChars, List.length_append]
  have hL : post.length + 1 ≤ (pre ++ tagChars name body ++ post).length := by
    simp only [List.length_append]
    omega
  have hne : (pre ++ tagChars name body ++ post).isEmpty = false := by
    apply List.isEmpty_eq_false.mpr
    intro h
    have hc := congrArg List.length h
    simp only [List.length_append, List.length_nil] at hc
    omega
  have hfeed := feedGo_strips_tag pre name body post hpre hnamegt hbody hpost
    (pre ++ tagChars name body ++ post).length hL
  unfold runRound linesOf
  simp only [List.map_cons, List.map_nil, List.nil_append, List.cons_append]
  rw [runLines_cons_not_done _ _ _ rfl]
  rw [processLine_feed initRound _ rfl hne]
  have hrun : ∀ st : RoundState, runLines st [doneLine]
      = flushDone (processLine st doneLine) := fun _ => rfl
  rw [hrun, processLine_done]
  rw [flushDone_empty_buffer (by exact hfeed.2)]
  refine ⟨?_, rfl⟩
  simpa using hfeed.1

/-! ### Claim C8 -/

/-- C8: a complete inline tag whose body fails JSON decoding is still
stripped from the passthrough (the client sees only the surrounding text),
is excluded from the extracted tool-call set (the round ends with an empty
call list — non-fatal), and only that one call is dropped: a later
well-formed tag with a decodable body still yields exactly its call. -/
theorem malformed_tag_stripped_but_excluded
    (pre name body mid name2 body2 post : List Char) (args2 : JVal)
    (hpre : ∀ x ∈ pre, x ≠ '<')
    (hname : name ≠ []) (hnameq : ∀ c ∈ name, c ≠ '"') (hnamegt : ∀ c ∈ name, c ≠ '>')
    (hbody : ∀ c ∈ body, c ≠ '<')
    (hmid : ∀ c ∈ mid, c ≠ '<')
    (hname2 : name2 ≠ []) (hname2q : ∀ c ∈ name2, c ≠ '"')
    (hbody2 : ∀ c ∈ body2, c ≠ '<')
    (hpost : ∀ x ∈ post, x ≠ '<')
    (hbad : jsonLoads (pyStrip (String.mk body)) = none)
    (hgood : jsonLoads (pyStrip (String.mk body2)) = some args2) :
    (runRound (linesOf [String.mk (pre ++ tagChars name body ++ post)])).events.flatten
      = pre ++ post
    ∧ roundToolCalls (runRound (linesOf [String.mk (pre ++ tagChars name body ++ post)]))
      = []
    ∧ parse_tool_calls (String.mk (pre ++ tagChars name body
          ++ (mid ++ tagChars name2 body2 ++ post)))
      = [⟨String.mk name2, args2⟩] := by
  have hscan1 : findCallsF (pre ++ tagChars name body ++ post)
      = [(String.mk name, String.mk body)] := by
    rw [List.append_assoc, findCallsF_clean_prefix pre _ hpre,
      findCallsF_tag name body post hname hnameq hbody,
      findCallsF_clean post hpost]
  refine ⟨(runRound_strips_tag pre name body post hpre hnamegt hbody hpost).1, ?_, ?_⟩
  · have hir := runLines_linesOf_ir [String.mk (pre ++ tagChars name body ++ post)] initRound
    unfold roundToolCalls
    rw [show (runRound (linesOf [String.mk (pre ++ tagChars name body ++ post)]))
        = runLines initRound (linesOf [String.mk (pre ++ tagChars name body ++ post)])
        from rfl]
    rw [hir.2]
    have hinit : initRound.toolCallsFound.isEmpty = true := rfl
    rw [if_pos hinit]
    have hirval : (runLines initRound
        (linesOf [String.mk (pre ++ tagChars name body ++ post)])).iterationResponse
        = pre ++ tagChars name body ++ post := by
      rw [hir.1]; simp [initRound]
    rw [hirval]
    have hparse : parse_tool_calls (String.mk (pre ++ tagChars name body ++ post))
        = (findCallsF (pre ++ tagChars name body ++ post)).filterMap (fun nb =>
            match jsonLoads (pyStrip nb.2) with
            | some args => some ⟨nb.1, args⟩
            | none => none) := rfl
    rw [hparse, hscan1]
    simp [List.filterMap_cons, hbad]
  · have hscan2 : findCallsF (pre ++ tagChars name body
        ++ (mid ++ tagChars name2 body2 ++ post))
        = [(String.mk name, String.mk body), (String.mk name2, String.mk body2)] := by
      rw [List.append_assoc, findCallsF_clean_prefix pre _ hpre,
        findCallsF_tag name body _ hname hnameq hbody,
        List.append_assoc, findCallsF_clean_prefix mid _ hmid,
        findCallsF_tag name2 body2 post hname2 hname2q hbody2,
        findCallsF_clean post hpost]
    have hparse : parse_tool_calls (String.mk (pre ++ tagChars name body
          ++ (mid ++ tagChars name2 body2 ++ post)))
        = (findCallsF (pre ++ tagChars name body
            ++ (mid ++ tagChars name2 body2 ++ post))).filterMap (fun nb =>
            match jsonLoads (pyStrip nb.2) with
            | some args => some ⟨nb.1, args⟩
            | none => none) := rfl
    rw [hparse, hscan2]
    simp [List.filterMap_cons, hbad, hgood]

/-- Witness for C8: `<tool_call name="x">{oops</tool_call>` is stripped yet
yields no call, while a later `<tool_call name="y">{"a": 1}</tool_call>`
still extracts. -/
theorem malformed_tag_stripped_but_excluded_witness :
    parse_tool_calls (String.mk ("Sure: ".data ++ tagChars "x".data "\x7boops".data
        ++ (" and ".data ++ tagChars "y".data "\x7b\"a\": 1\x7d".data ++ "!".data)))
      = [⟨"y", JVal.jobj [("a", JVal.jnum "1")]⟩]
    ∧ (runRound (linesOf [String.mk ("Sure: ".data ++ tagChars "x".data "\x7boops".data
        ++ "!".data)])).events.flatten = "Sure: ".data ++ "!".data := by
  have h := malformed_tag_stripped_but_excluded "Sure: ".data "x".data "\x7boops".data
    " and ".data "y".data "\x7b\"a\": 1\x7d".data "!".data
    (JVal.jobj [("a", JVal.jnum "1")])
    (by decide) (by decide) (by decide) (by decide) (by decide) (by decide)
    (by decide) (by decide) (by decide) (by decide) rfl rfl
  exact ⟨h.2.2, h.1⟩
